import Mathlib

/-!
Verification of the workflow-orchestration core of the repository.

The development shallowly embeds the relevant TypeScript sources:

* `src/app/builders/flow-builder.ts` — `FlowStep`, `Flow`, `FlowBuilder.buildFlow`,
  `FlowBuilder.validateFlow` (cycle detection + missing-dependency detection)
  and `FlowBuilder.optimizeFlow` (DFS topological sort).
* `src/app/builders/workflow-builder.ts` — `WorkflowStep`, `Workflow`,
  `WorkflowBuilder.executeStep` (retry loop), `executeSequential`,
  `executeParallel` and `execute`.
* `src/unnamed/part_003` (`AiCodeOrchestrator`) — `orchestrate` and the
  per-mode runners `runCIMode`, `runDeploymentMode`, `runFullAutomation`.

Modelling conventions:
* JavaScript `Map`s that are only ever read through membership / lookup are
  modelled as association lists in insertion order.
* Promise-returning actions are modelled as functions from the attempt index
  to `Except String α`: the observed outcome of the k-th invocation.  A
  timeout produced by `executeWithTimeout` surfaces to its caller exactly
  like an application error (a rejected promise), so it is one of the
  `Except.error` cases; retry counting is unaffected by the distinction.
* Wall-clock fields (`duration`, `metadata.created`, `Date.now()` ids) and
  the `config: any` payloads are outside the claims and are omitted or taken
  as parameters.
* The stateful depth-first traversals in `validateFlow` and `optimizeFlow`
  are written fuel-indexed; the top-level entry points supply
  `steps.length + 1` fuel, which is proved sufficient where a claim needs it.
-/

namespace AiCode

/-- `FlowStep` from `flow-builder.ts`: `type` is the string union
`analyze | generate | test | deploy | custom`; `config` is omitted. -/
structure FlowStep where
  id : String
  name : String
  type : String
  action : String
  optional : Bool
  dependencies : List String
  deriving Repr, DecidableEq

/-- `Flow` from `flow-builder.ts`; `metadata` (creation date, version) omitted. -/
structure Flow where
  id : String
  name : String
  description : String
  steps : List FlowStep
  deriving Repr, DecidableEq

/-- `ValidationResult`: the anonymous `{ valid, errors }` record returned by
`FlowBuilder.validateFlow`. -/
structure ValidationResult where
  valid : Bool
  errors : List String
  deriving Repr, DecidableEq

/-- `flow.steps.find(s => s.id === stepId)` — first step carrying the id. -/
def findStep (steps : List FlowStep) (stepId : String) : Option FlowStep :=
  steps.find? (fun s => s.id == stepId)

/-- State threaded through the cycle-detection DFS of `validateFlow`:
the shared `visited` set and the accumulated `errors` array. -/
structure CheckState where
  visited : List String
  errors : List String
  deriving Repr, DecidableEq

/-- The single quote character, used inside generated error messages. -/
def squote : String := "\x27"

/-- The error message pushed by the cycle branch of `checkDependencies`:
`Circular dependency detected: ${Array.from(path).join(' -> ')} -> ${stepId}`. -/
def cycleMsg (path : List String) (stepId : String) : String :=
  "Circular dependency detected: " ++ String.intercalate " -> " path ++ " -> " ++ stepId

/-- The error message pushed by the missing-dependency loop of `validateFlow`:
`Step '${step.id}' has missing dependency: ${dep}`. -/
def missingMsg (stepId dep : String) : String :=
  "Step " ++ squote ++ stepId ++ squote ++ " has missing dependency: " ++ dep

/-- `checkDependencies(stepId, path)` from `FlowBuilder.validateFlow`,
fuel-indexed.  `path` is the ordered path set (each recursive call receives a
copy of the parent path extended with the parent id, exactly as
`new Set(path)` after `path.add(stepId)` does); `visited` and `errors` are
the closure-captured mutable state. -/
def checkDependencies (steps : List FlowStep) :
    Nat → String → List String → CheckState → CheckState
  | 0, _, _, st => st
  | fuel + 1, stepId, path, st =>
    if stepId ∈ path then
      { st with errors := st.errors ++ [cycleMsg path stepId] }
    else if stepId ∈ st.visited then
      st
    else
      let st1 : CheckState := { st with visited := stepId :: st.visited }
      match findStep steps stepId with
      | none => st1
      | some step =>
          step.dependencies.foldl
            (fun acc dep => checkDependencies steps fuel dep (path ++ [stepId]) acc) st1

/-- The cycle-detection phase of `validateFlow`: `flow.steps.forEach(step =>
checkDependencies(step.id))` starting from empty `visited`/`errors`. -/
def cyclePhase (steps : List FlowStep) : CheckState :=
  steps.foldl
    (fun st s => checkDependencies steps (steps.length + 1) s.id [] st)
    ⟨[], []⟩

/-- The missing-dependency phase of `validateFlow`: for every step and every
dependency absent from the flow, push a `missingMsg` error. -/
def missingPhase (steps : List FlowStep) (errors : List String) : List String :=
  steps.foldl
    (fun acc s =>
      s.dependencies.foldl
        (fun acc2 dep =>
          if (findStep steps dep).isSome then acc2 else acc2 ++ [missingMsg s.id dep])
        acc)
    errors

/-- `FlowBuilder.validateFlow`: cycle detection, then missing-dependency
detection appending to the same `errors` array; `valid := errors.length === 0`. -/
def validateFlow (flow : Flow) : ValidationResult :=
  let errors := missingPhase flow.steps (cyclePhase flow.steps).errors
  ⟨errors.isEmpty, errors⟩

/-- State of the DFS in `FlowBuilder.optimizeFlow`: the `visited` set and the
`sorted` output array. -/
structure SortState where
  visited : List String
  sorted : List FlowStep
  deriving Repr, DecidableEq

/-- `visit(stepId)` from `FlowBuilder.optimizeFlow`, fuel-indexed: mark the id
visited, recurse into the dependencies of the carrying step (if any), then
push the step. -/
def visitStep (steps : List FlowStep) : Nat → String → SortState → SortState
  | 0, _, st => st
  | fuel + 1, stepId, st =>
    if stepId ∈ st.visited then st
    else
      let st1 : SortState := { st with visited := stepId :: st.visited }
      match findStep steps stepId with
      | none => st1
      | some step =>
          let st2 := step.dependencies.foldl
            (fun acc dep => visitStep steps fuel dep acc) st1
          { st2 with sorted := st2.sorted ++ [step] }

/-- `FlowBuilder.optimizeFlow`: DFS from every step in declaration order;
the flow is returned with `steps` replaced by the sorted array. -/
def optimizeFlow (flow : Flow) : Flow :=
  let st := flow.steps.foldl
    (fun acc s => visitStep flow.steps (flow.steps.length + 1) s.id acc)
    ⟨[], []⟩
  { flow with steps := st.sorted }

/-- The `Partial<FlowStep>` records accepted by `FlowBuilder.buildFlow`. -/
structure PartialFlowStep where
  id : Option String
  name : Option String
  type : Option String
  action : Option String
  optional : Option Bool
  dependencies : Option (List String)
  deriving Repr, DecidableEq

/-- The per-spec defaulting done by `FlowBuilder.buildFlow` for the step at
index `index`. -/
def buildFlowStep (index : Nat) (p : PartialFlowStep) : FlowStep :=
  { id := p.id.getD ("step-" ++ toString index)
    name := p.name.getD ("Step " ++ toString (index + 1))
    type := p.type.getD "custom"
    action := p.action.getD "process"
    optional := p.optional.getD false
    dependencies := p.dependencies.getD [] }

/-- `FlowBuilder.buildFlow`: maps every incoming spec to a step (no
duplicate-id check of any kind); `ts` stands for the `Date.now()` used in the
generated flow id. -/
def buildFlow (ts : Nat) (name description : String)
    (steps : List PartialFlowStep) : Flow :=
  { id := "flow-" ++ toString ts
    name := name
    description := description
    steps := (steps.enum.map fun p => buildFlowStep p.1 p.2) }

/-! ### Concrete flows used by the scenarios -/

/-- A bare step with the given id and dependencies (other fields defaulted the
way `buildFlow` would default them). -/
def mkStep (id : String) (deps : List String) : FlowStep :=
  ⟨id, id, "custom", "process", false, deps⟩

/-- Scenario S2: `Graph{A deps:[B], B deps:[A]}`. -/
def crossFlow : Flow :=
  ⟨"cross", "cross", "two mutually dependent steps",
    [mkStep "A" ["B"], mkStep "B" ["A"]]⟩

/-- Scenario S3: `Graph{A deps:["ghost"]}`. -/
def ghostFlow : Flow :=
  ⟨"ghost", "ghost", "one step with a dangling dependency",
    [mkStep "A" ["ghost"]]⟩

/-- Scenario S1: `Graph{sync, analyze deps:[sync], test deps:[analyze]}`. -/
def chainFlow : Flow :=
  ⟨"chain", "chain", "three chained steps",
    [mkStep "sync" [], mkStep "analyze" ["sync"], mkStep "test" ["analyze"]]⟩

example : validateFlow crossFlow =
    ⟨false, ["Circular dependency detected: A -> B -> A"]⟩ := by decide

example : validateFlow ghostFlow =
    ⟨false, ["Step " ++ squote ++ "A" ++ squote ++ " has missing dependency: ghost"]⟩ := by
  decide

example : validateFlow chainFlow = ⟨true, []⟩ := by decide

example : (optimizeFlow chainFlow).steps.map FlowStep.id =
    ["sync", "analyze", "test"] := by decide

example : (optimizeFlow crossFlow).steps.map FlowStep.id = ["B", "A"] := by decide

/-! ### Workflow execution engine (`workflow-builder.ts`)

`WorkflowStep.action` is `() => Promise<any>`; it is modelled by the outcome
of each successive invocation, indexed by the attempt number.  An
`Except.error` outcome covers both a rejected promise and the
`new Error('Timeout')` rejection produced by `executeWithTimeout` — the
retry loop in `executeStep` treats the two identically.  The optional
`condition` thunk is modelled by its boolean value; the `onSuccess`/`onError`
callbacks are side effects invisible to the returned `WorkflowResult` and are
omitted.  Note the source `WorkflowStep` has *no* `dependencies` and *no*
`optional` field. -/

/-- `WorkflowStep` from `workflow-builder.ts`, over a value type `α`. -/
structure WorkflowStep (α : Type) where
  id : String
  name : String
  action : Nat → Except String α
  condition : Option Bool
  retries : Option Nat
  timeout : Option Nat

/-- `Workflow` from `workflow-builder.ts` (without the `Date.now()` id). -/
structure Workflow (α : Type) where
  name : String
  steps : List (WorkflowStep α)
  parallel : Bool

/-- `WorkflowResult`: `success`, the `results` map and the `errors` map (as
association lists in insertion order); `duration` omitted. -/
structure WorkflowResult (α : Type) where
  success : Bool
  results : List (String × α)
  errors : List (String × String)
  deriving Repr, DecidableEq

/-- The retry loop of `executeStep`: starting at attempt index `start` with
`remaining` retries left, return the final outcome together with the number
of action invocations actually made.  Matches
`for (let attempt = 0; attempt <= retries; attempt++) { try { return ... }
catch { if (attempt === retries) throw; } }`: a success returns immediately,
the last failed attempt rethrows. -/
def execAttempts {α : Type} (action : Nat → Except String α) :
    Nat → Nat → Except String α × Nat
  | start, 0 => (action start, 1)
  | start, remaining + 1 =>
    match action start with
    | Except.ok v => (Except.ok v, 1)
    | Except.error _ =>
        let r := execAttempts action (start + 1) remaining
        (r.1, r.2 + 1)

/-- `WorkflowBuilder.executeStep`: `retries = step.retries || 0`, then the
retry loop.  Returns the step outcome paired with the attempt count. -/
def executeStep {α : Type} (step : WorkflowStep α) : Except String α × Nat :=
  execAttempts step.action 0 (step.retries.getD 0)

/-- `step.condition && !step.condition()` guard: a step runs unless its
condition is present and evaluates to false. -/
def stepEnabled {α : Type} (step : WorkflowStep α) : Bool :=
  step.condition.getD true

/-- `WorkflowBuilder.executeSequential`: steps one at a time; a failing step
records its error and `break`s out of the loop — nothing at all is recorded
for the steps that were never reached. -/
def executeSequentialGo {α : Type} :
    List (WorkflowStep α) → List (String × α) → List (String × String) →
      List (String × α) × List (String × String)
  | [], results, errors => (results, errors)
  | step :: rest, results, errors =>
    if stepEnabled step then
      match (executeStep step).1 with
      | Except.ok v => executeSequentialGo rest (results ++ [(step.id, v)]) errors
      | Except.error e => (results, errors ++ [(step.id, e)])
    else
      executeSequentialGo rest results errors

/-- `executeSequential` entry point. -/
def executeSequential {α : Type} (steps : List (WorkflowStep α)) :
    List (String × α) × List (String × String) :=
  executeSequentialGo steps [] []

/-- `WorkflowBuilder.executeParallel`: `workflow.steps.map(async step => ...)`
followed by `Promise.all` — every enabled step is launched and runs to its
own outcome, with no dependency gating of any kind (the step type has no
dependency data to consult).  Map contents are faithful; the source populates
the maps in completion order, modelled here in declaration order. -/
def executeParallel {α : Type} (steps : List (WorkflowStep α)) :
    List (String × α) × List (String × String) :=
  steps.foldl
    (fun acc step =>
      if stepEnabled step then
        match (executeStep step).1 with
        | Except.ok v => (acc.1 ++ [(step.id, v)], acc.2)
        | Except.error e => (acc.1, acc.2 ++ [(step.id, e)])
      else acc)
    ([], [])

/-- The ids of the steps whose async wrapper is started by `executeParallel`
before any of them is awaited: all of them (in declaration order), filtered
only by their `condition`. -/
def launchedSteps {α : Type} (steps : List (WorkflowStep α)) : List String :=
  (steps.filter stepEnabled).map WorkflowStep.id

/-- `WorkflowBuilder.execute` after the workflow lookup succeeded:
run the chosen policy and report `success := errors.size === 0`. -/
def execute {α : Type} (w : Workflow α) : WorkflowResult α :=
  let p := if w.parallel then executeParallel w.steps else executeSequential w.steps
  ⟨p.2.isEmpty, p.1, p.2⟩

/-- `WorkflowBuilder.addStep`: pushes the step onto the named workflow
unconditionally — no duplicate-id (or any other) check. -/
def addStep {α : Type} (w : Workflow α) (step : WorkflowStep α) : Workflow α :=
  { w with steps := w.steps ++ [step] }

/-- A workflow step that succeeds with `v` on every attempt. -/
def okStep (id : String) (v : Nat) : WorkflowStep Nat :=
  ⟨id, id, fun _ => Except.ok v, none, none, none⟩

/-- A workflow step that fails with message `e` on every attempt. -/
def failStep (id : String) (e : String) : WorkflowStep Nat :=
  ⟨id, id, fun _ => Except.error e, none, none, none⟩

/-- Sequential chain A (always fails), then B — scenario for the halt claim. -/
def seqHaltWorkflow : Workflow Nat :=
  ⟨"halt", [failStep "A" "boom", okStep "B" 1], false⟩

/-- Parallel pair: A always fails, B succeeds; in the corresponding flow
(`crossParallelFlow` below is not needed — see `parallelDepFlow`) B declares a
dependency on A. -/
def parDepWorkflow : Workflow Nat :=
  ⟨"par", [failStep "A" "boom", okStep "B" 1], true⟩

/-- The dependency declaration matching `parDepWorkflow`: step B depends on
step A.  `WorkflowBuilder` has no way to receive this information — its step
type carries none — which is the point of the parallel-execution claim. -/
def parallelDepFlow : Flow :=
  ⟨"par", "par", "B depends on A", [mkStep "A" [], mkStep "B" ["A"]]⟩

example : execute seqHaltWorkflow = ⟨false, [], [("A", "boom")]⟩ := by
  decide

example : execute parDepWorkflow = ⟨false, [("B", 1)], [("A", "boom")]⟩ := by
  decide

example : launchedSteps parDepWorkflow.steps = ["A", "B"] := by decide

example :
    executeStep (α := Nat) ⟨"f", "f", fun _ => Except.error "x", none, some 2, none⟩ =
      (Except.error "x", 3) := rfl

/-! ### `AiCodeOrchestrator` (`src/unnamed/part_003`)

The external tools (`AutoSync`, `AutoTest`, `AutoDeploy`, ...) are opaque
collaborators; an `OrchestratorEnv` records the result each one would return
for the current target.  `runAutoConfig` is the one runner whose result is
fixed by the orchestrator itself (`return { success: true }`).  Thrown
JavaScript errors are modelled as a name/message pair: `new Error(msg)` has
`name = "Error"`. -/

/-- The observable part of an external tool result (any further payload is
irrelevant to the orchestrator, which only reads `.success`). -/
structure ToolResult where
  success : Bool
  deriving Repr, DecidableEq

/-- A thrown JavaScript `Error`: its `name` ("Error" for `new Error(...)`)
and its message. -/
structure JsError where
  name : String
  message : String
  deriving Repr, DecidableEq

/-- Results the opaque collaborators would produce for the current target. -/
structure OrchestratorEnv where
  syncResult : ToolResult
  analysisResult : ToolResult
  repairResult : ToolResult
  fixResult : ToolResult
  testResult : ToolResult
  commentsResult : ToolResult
  deployResult : ToolResult
  deployPlatform : Bool
  deriving Repr, DecidableEq

/-- `OrchestratorResult` (duration and timestamp omitted): aggregate
`success` and the `phases` map in insertion order. -/
structure OrchestratorResult where
  success : Bool
  phases : List (String × ToolResult)
  deriving Repr, DecidableEq

/-- The legal values of `OrchestratorConfig.mode`, exactly the TypeScript
union `'full' | 'development' | 'ci' | 'deployment'`. -/
def configModes : List String := ["full", "development", "ci", "deployment"]

/-- `runFullAutomation`: eight phases, `deploy` only when a deploy platform is
configured; nothing here ever throws. -/
def runFullAutomation (env : OrchestratorEnv) :
    List (String × ToolResult) × Option JsError :=
  (([("sync", env.syncResult), ("config", ⟨true⟩), ("analysis", env.analysisResult),
      ("repair", env.repairResult), ("fix", env.fixResult), ("test", env.testResult),
      ("comments", env.commentsResult)] ++
    (if env.deployPlatform then [("deploy", env.deployResult)] else [])), none)

/-- `runDevelopmentMode`: runs sync/analyze/repair/test/comments but records
no phase at all (the source never calls `result.phases.set`). -/
def runDevelopmentMode : List (String × ToolResult) × Option JsError :=
  ([], none)

/-- `runCIMode`: analysis, repair, test phases; afterwards
`if (!testResult.success) throw new Error('Tests failed in CI mode')`. -/
def runCIMode (env : OrchestratorEnv) :
    List (String × ToolResult) × Option JsError :=
  ([("analysis", env.analysisResult), ("repair", env.repairResult),
      ("test", env.testResult)],
    if env.testResult.success then none
    else some ⟨"Error", "Tests failed in CI mode"⟩)

/-- `runDeploymentMode`: record the test phase; if the test failed,
`throw new Error('Tests must pass before deployment')` — the deploy tool is
never consulted; otherwise record the deploy phase. -/
def runDeploymentMode (env : OrchestratorEnv) :
    List (String × ToolResult) × Option JsError :=
  if env.testResult.success then
    ([("test", env.testResult), ("deploy", env.deployResult)], none)
  else
    ([("test", env.testResult)], some ⟨"Error", "Tests must pass before deployment"⟩)

/-- `AiCodeOrchestrator.orchestrate`: dispatch on the mode string (a mode
outside the switch runs no phase at all), catch any thrown error —
`success := true` when nothing threw, `false` otherwise, the caught error
being only logged.  Returns the result together with the caught error. -/
def orchestrateRun (env : OrchestratorEnv) (mode : String) :
    OrchestratorResult × Option JsError :=
  let r :=
    if mode = "full" then runFullAutomation env
    else if mode = "development" then runDevelopmentMode
    else if mode = "ci" then runCIMode env
    else if mode = "deployment" then runDeploymentMode env
    else ([], none)
  (⟨r.2.isNone, r.1⟩, r.2)

/-- The `OrchestratorResult` alone. -/
def orchestrate (env : OrchestratorEnv) (mode : String) : OrchestratorResult :=
  (orchestrateRun env mode).1

/-- An environment in which every tool succeeds except the test runner. -/
def failingTestEnv : OrchestratorEnv :=
  ⟨⟨true⟩, ⟨true⟩, ⟨true⟩, ⟨true⟩, ⟨false⟩, ⟨true⟩, ⟨true⟩, true⟩

example :
    orchestrateRun failingTestEnv "deployment" =
      (⟨false, [("test", ⟨false⟩)]⟩,
        some ⟨"Error", "Tests must pass before deployment"⟩) := by decide

example :
    orchestrateRun failingTestEnv "components" = (⟨true, []⟩, none) := by decide

example : orchestrate failingTestEnv "ci" =
    ⟨false, [("analysis", ⟨true⟩), ("repair", ⟨true⟩), ("test", ⟨false⟩)]⟩ := by
  decide

/-! ### The dependency relation of a flow -/

/-- `depRel steps u v`: the step carrying id `u` lists `v` among its
dependencies (`u` depends on `v`). -/
def depRel (steps : List FlowStep) (u v : String) : Prop :=
  ∃ s, findStep steps u = some s ∧ v ∈ s.dependencies

/-- The graph contains a dependency cycle: some id transitively depends on
itself. -/
def HasCycle (steps : List FlowStep) : Prop :=
  ∃ u, Relation.TransGen (depRel steps) u u

/-- No id transitively depends on itself. -/
def Acyclic (steps : List FlowStep) : Prop :=
  ∀ u, ¬ Relation.TransGen (depRel steps) u u

/-- Every dependency id is carried by some step of the flow. -/
def FullyReferenced (steps : List FlowStep) : Prop :=
  ∀ s ∈ steps, ∀ d ∈ s.dependencies, (findStep steps d).isSome

lemma findStep_eq_some {steps : List FlowStep} {x : String} {s : FlowStep}
    (h : findStep steps x = some s) : s ∈ steps ∧ s.id = x := by
  have h1 : s ∈ steps := List.mem_of_find?_eq_some h
  have h2 := List.find?_some h
  simp only [beq_iff_eq] at h2
  exact ⟨h1, h2⟩

lemma findStep_self {steps : List FlowStep} (hnd : (steps.map FlowStep.id).Nodup)
    {s : FlowStep} (hs : s ∈ steps) : findStep steps s.id = some s := by
  induction steps with
  | nil => cases hs
  | cons t rest ih =>
    simp only [List.map_cons, List.nodup_cons] at hnd
    rcases List.mem_cons.mp hs with rfl | hmem
    · simp [findStep]
    · have hne : (t.id == s.id) = false := by
        refine beq_eq_false_iff_ne.mpr fun h => ?_
        exact hnd.1 (h ▸ List.mem_map_of_mem FlowStep.id hmem)
      have := ih hnd.2 hmem
      simpa [findStep, List.find?_cons, hne] using this

/-- Any strictly rank-decreasing relation has no cycles (used to discharge
acyclicity at concrete graphs). -/
lemma no_cycle_of_rank {r : String → String → Prop} (rk : String → Nat)
    (h : ∀ u v, r u v → rk v < rk u) (u : String) :
    ¬ Relation.TransGen r u u := by
  intro hcyc
  have key : ∀ a b, Relation.TransGen r a b → rk b < rk a := by
    intro a b hab
    induction hab with
    | single h1 => exact h _ _ h1
    | tail _ h1 ih => exact lt_trans (h _ _ h1) ih
  exact lt_irrefl _ (key u u hcyc)

/-- The set of ids carried by some step. -/
def presentIds (steps : List FlowStep) : Finset String :=
  (steps.map FlowStep.id).toFinset

lemma present_iff {steps : List FlowStep} {x : String} :
    (findStep steps x).isSome ↔ x ∈ presentIds steps := by
  simp [findStep, List.find?_isSome, presentIds, List.mem_map, beq_iff_eq]

/-- Fuel measure for the depth-first traversals: present ids not yet visited. -/
def remainingIds (steps : List FlowStep) (visited : List String) : Nat :=
  (presentIds steps \ visited.toFinset).card

lemma remainingIds_mono {steps : List FlowStep} {v v' : List String}
    (h : ∀ x ∈ v, x ∈ v') : remainingIds steps v' ≤ remainingIds steps v := by
  apply Finset.card_le_card
  apply Finset.sdiff_subset_sdiff (le_refl _)
  intro x hx
  exact List.mem_toFinset.mpr (h x (List.mem_toFinset.mp hx))

lemma remainingIds_cons {steps : List FlowStep} {visited : List String} {x : String}
    (h1 : x ∈ presentIds steps) (h2 : x ∉ visited) :
    remainingIds steps (x :: visited) + 1 = remainingIds steps visited := by
  have hx : x ∈ presentIds steps \ visited.toFinset :=
    Finset.mem_sdiff.mpr ⟨h1, fun hc => h2 (List.mem_toFinset.mp hc)⟩
  have : presentIds steps \ (x :: visited).toFinset =
      (presentIds steps \ visited.toFinset).erase x := by
    rw [List.toFinset_cons, Finset.sdiff_insert]
  rw [remainingIds, this, remainingIds, Finset.card_erase_add_one hx]

/-! ### Invariants of the `optimizeFlow` depth-first sort -/

/-- Ids of the steps already pushed onto the output array. -/
def sortedIds (st : SortState) : List String := st.sorted.map FlowStep.id

/-- Invariant of the `optimizeFlow` DFS.  `opens` lists the ids of the DFS
frames currently being expanded (an id is in `visited` from frame entry, but
its step is pushed only at frame exit). -/
structure SortInv (steps : List FlowStep) (st : SortState) (opens : List String) : Prop where
  find_sorted : ∀ t ∈ st.sorted, findStep steps t.id = some t
  nodup_sorted : (sortedIds st).Nodup
  sorted_vis : ∀ x ∈ sortedIds st, x ∈ st.visited
  opens_vis : ∀ o ∈ opens, o ∈ st.visited
  vis_covered : ∀ x ∈ st.visited, (findStep steps x).isSome →
      x ∈ sortedIds st ∨ x ∈ opens
  sorted_not_open : ∀ x ∈ sortedIds st, x ∉ opens

lemma visitStep_inv (steps : List FlowStep) :
    ∀ (fuel : Nat) (stepId : String) (st : SortState) (opens : List String),
      SortInv steps st opens →
      SortInv steps (visitStep steps fuel stepId st) opens ∧
      (∀ x ∈ st.visited, x ∈ (visitStep steps fuel stepId st).visited) ∧
      (∃ tail, (visitStep steps fuel stepId st).sorted = st.sorted ++ tail) ∧
      (0 < fuel → stepId ∈ (visitStep steps fuel stepId st).visited) := by
  intro fuel
  induction fuel with
  | zero =>
    intro stepId st opens hinv
    exact ⟨hinv, fun x hx => hx, ⟨[], by simp [visitStep]⟩,
      fun h => absurd h (lt_irrefl 0)⟩
  | succ fuel ih =>
    intro stepId st opens hinv
    by_cases hid : stepId ∈ st.visited
    · simp only [visitStep, if_pos hid]
      exact ⟨hinv, fun x hx => hx, ⟨[], by simp⟩, fun _ => hid⟩
    · have hso : ∀ x ∈ sortedIds st, x ≠ stepId := by
        intro x hx hxeq
        exact hid (hxeq ▸ hinv.sorted_vis x hx)
      have hoo : stepId ∉ opens := fun h => hid (hinv.opens_vis _ h)
      cases hfind : findStep steps stepId with
      | none =>
        simp only [visitStep, if_neg hid, hfind]
        refine ⟨⟨hinv.find_sorted, hinv.nodup_sorted, ?_, ?_, ?_, hinv.sorted_not_open⟩,
          ?_, ⟨[], by simp⟩, ?_⟩
        · intro x hx; exact List.mem_cons_of_mem _ (hinv.sorted_vis x hx)
        · intro o ho; exact List.mem_cons_of_mem _ (hinv.opens_vis o ho)
        · intro x hx hpres
          rcases List.mem_cons.mp hx with rfl | hx0
          · rw [hfind] at hpres; cases hpres
          · exact hinv.vis_covered x hx0 hpres
        · intro x hx; exact List.mem_cons_of_mem _ hx
        · intro _; exact List.mem_cons_self _ _
      | some step =>
        -- the fresh, present frame: recurse into the dependencies, then push
        have hstep := findStep_eq_some hfind
        have hinv1 : SortInv steps ⟨stepId :: st.visited, st.sorted⟩ (stepId :: opens) := by
          refine ⟨hinv.find_sorted, hinv.nodup_sorted, ?_, ?_, ?_, ?_⟩
          · intro x hx; exact List.mem_cons_of_mem _ (hinv.sorted_vis x hx)
          · intro o ho
            rcases List.mem_cons.mp ho with rfl | ho0
            · exact List.mem_cons_self _ _
            · exact List.mem_cons_of_mem _ (hinv.opens_vis o ho0)
          · intro x hx hpres
            rcases List.mem_cons.mp hx with rfl | hx0
            · exact Or.inr (List.mem_cons_self _ _)
            · rcases hinv.vis_covered x hx0 hpres with h | h
              · exact Or.inl h
              · exact Or.inr (List.mem_cons_of_mem _ h)
          · intro x hx hmem
            rcases List.mem_cons.mp hmem with rfl | hmem0
            · exact hso x hx rfl
            · exact hinv.sorted_not_open x hx hmem0
        have fold_inv : ∀ (deps : List String) (st' : SortState) (opens' : List String),
            SortInv steps st' opens' →
            SortInv steps (deps.foldl (fun acc dep => visitStep steps fuel dep acc) st') opens' ∧
            (∀ x ∈ st'.visited,
              x ∈ (deps.foldl (fun acc dep => visitStep steps fuel dep acc) st').visited) ∧
            (∃ tail, (deps.foldl (fun acc dep => visitStep steps fuel dep acc) st').sorted =
              st'.sorted ++ tail) := by
          intro deps
          induction deps with
          | nil => intro st' opens' h; exact ⟨h, fun x hx => hx, ⟨[], by simp⟩⟩
          | cons d rest ihd =>
            intro st' opens' h
            rcases ih d st' opens' h with ⟨h1, h2, ⟨t1, ht1⟩, _⟩
            rcases ihd (visitStep steps fuel d st') opens' h1 with ⟨g1, g2, ⟨t2, ht2⟩⟩
            simp only [List.foldl_cons]
            exact ⟨g1, fun x hx => g2 x (h2 x hx), ⟨t1 ++ t2, by rw [ht2, ht1, List.append_assoc]⟩⟩
        rcases fold_inv step.dependencies ⟨stepId :: st.visited, st.sorted⟩
            (stepId :: opens) hinv1 with ⟨hinv2, hmono2, ⟨tail2, htail2⟩⟩
        simp only [visitStep, if_neg hid, hfind]
        set st2 := step.dependencies.foldl (fun acc dep => visitStep steps fuel dep acc)
          ⟨stepId :: st.visited, st.sorted⟩ with hst2
        have hidvis2 : stepId ∈ st2.visited := hmono2 _ (List.mem_cons_self _ _)
        have hidnotsorted2 : stepId ∉ sortedIds st2 := by
          intro hmem
          exact hinv2.sorted_not_open _ hmem (List.mem_cons_self _ _)
        have hids_append : sortedIds ⟨st2.visited, st2.sorted ++ [step]⟩ =
            sortedIds st2 ++ [stepId] := by
          simp [sortedIds, hstep.2]
        refine ⟨⟨?_, ?_, ?_, ?_, ?_, ?_⟩, ?_, ?_, ?_⟩
        · intro t ht
          rcases List.mem_append.mp ht with h | h
          · exact hinv2.find_sorted t h
          · have : t = step := by simpa using h
            subst this
            rw [hstep.2]; exact hfind
        · rw [hids_append]
          refine List.nodup_append.mpr ⟨hinv2.nodup_sorted, List.nodup_singleton _, ?_⟩
          intro x hx hx1
          have : x = stepId := by simpa using hx1
          exact hidnotsorted2 (this ▸ hx)
        · intro x hx
          rw [hids_append] at hx
          rcases List.mem_append.mp hx with h | h
          · exact hinv2.sorted_vis x h
          · have : x = stepId := by simpa using h
            exact this ▸ hidvis2
        · intro o ho
          exact hinv2.opens_vis o (List.mem_cons_of_mem _ ho)
        · intro x hx hpres
          rcases hinv2.vis_covered x hx hpres with h | h
          · rw [hids_append]; exact Or.inl (List.mem_append.mpr (Or.inl h))
          · rcases List.mem_cons.mp h with rfl | h0
            · rw [hids_append]
              exact Or.inl (List.mem_append.mpr (Or.inr (List.mem_singleton.mpr rfl)))
            · exact Or.inr h0
        · intro x hx
          rw [hids_append] at hx
          rcases List.mem_append.mp hx with h | h
          · intro hmem
            exact hinv2.sorted_not_open x h (List.mem_cons_of_mem _ hmem)
          · have : x = stepId := by simpa using h
            exact this ▸ hoo
        · intro x hx
          exact hmono2 x (List.mem_cons_of_mem _ hx)
        · exact ⟨tail2 ++ [step], by rw [htail2, List.append_assoc]⟩
        · intro _; exact hidvis2

/-- The outer `flow.steps.forEach(step => visit(step.id))` loop: the invariant
is maintained with no open frame, and every listed step id ends up visited. -/
lemma optimizeFold_inv (steps : List FlowStep) (fuel : Nat) (hfuel : 0 < fuel) :
    ∀ (l : List FlowStep) (st : SortState), SortInv steps st [] →
      SortInv steps (l.foldl (fun acc s => visitStep steps fuel s.id acc) st) [] ∧
      (∀ x ∈ st.visited,
        x ∈ (l.foldl (fun acc s => visitStep steps fuel s.id acc) st).visited) ∧
      (∀ s ∈ l, s.id ∈ (l.foldl (fun acc s => visitStep steps fuel s.id acc) st).visited) := by
  intro l
  induction l with
  | nil => intro st h; exact ⟨h, fun x hx => hx, fun s hs => absurd hs (List.not_mem_nil s)⟩
  | cons s rest ihl =>
    intro st h
    rcases visitStep_inv steps fuel s.id st [] h with ⟨h1, h2, _, h4⟩
    rcases ihl (visitStep steps fuel s.id st) h1 with ⟨g1, g2, g3⟩
    simp only [List.foldl_cons]
    refine ⟨g1, fun x hx => g2 x (h2 x hx), ?_⟩
    intro t ht
    rcases List.mem_cons.mp ht with rfl | ht0
    · exact g2 _ (h4 hfuel)
    · exact g3 t ht0

/-- For a flow with pairwise-distinct step ids — cyclic or not, dangling
dependencies or not — `optimizeFlow` permutes the steps: none dropped, none
duplicated. -/
lemma optimizeFlow_perm (f : Flow) (hnd : (f.steps.map FlowStep.id).Nodup) :
    (optimizeFlow f).steps.Perm f.steps := by
  have hinv0 : SortInv f.steps (⟨[], []⟩ : SortState) [] := by
    refine ⟨?_, ?_, ?_, ?_, ?_, ?_⟩ <;> simp [sortedIds]
  rcases optimizeFold_inv f.steps (f.steps.length + 1) (Nat.succ_pos _) f.steps
      ⟨[], []⟩ hinv0 with ⟨hinv, _, hall⟩
  set final := f.steps.foldl
    (fun acc s => visitStep f.steps (f.steps.length + 1) s.id acc)
    (⟨[], []⟩ : SortState) with hfinal
  have hsteps : (optimizeFlow f).steps = final.sorted := rfl
  have hmem1 : ∀ t ∈ final.sorted, t ∈ f.steps := fun t ht =>
    (findStep_eq_some (hinv.find_sorted t ht)).1
  have hmem2 : ∀ s ∈ f.steps, s ∈ final.sorted := by
    intro s hs
    have hpres : (findStep f.steps s.id).isSome := by
      rw [findStep_self hnd hs]; rfl
    rcases hinv.vis_covered s.id (hall s hs) hpres with h | h
    · rcases List.mem_map.mp h with ⟨t, ht, htid⟩
      have heq := hinv.find_sorted t ht
      rw [htid, findStep_self hnd hs] at heq
      have hts : s = t := by injection heq
      subst hts
      exact ht
    · cases h
  have hnd1 : final.sorted.Nodup := List.Nodup.of_map FlowStep.id hinv.nodup_sorted
  have hnd2 : f.steps.Nodup := List.Nodup.of_map FlowStep.id hnd
  rw [hsteps]
  exact (List.perm_ext_iff_of_nodup hnd1 hnd2).mpr
    (fun t => ⟨hmem1 t, hmem2 t⟩)

/-! ### Ordering produced by `optimizeFlow` on valid graphs -/

/-- Every step of the list has all its dependencies among the ids of the
strictly earlier steps. -/
def GoodOrder (sorted : List FlowStep) : Prop :=
  ∀ (j : Nat) (hj : j < sorted.length), ∀ d ∈ (sorted.get ⟨j, hj⟩).dependencies,
    d ∈ (sorted.take j).map FlowStep.id

/-- The dependency edges along the currently open DFS frames: the head of
`opens` depends on the current id, the next element on the head, and so on. -/
def OpensChain (steps : List FlowStep) : List String → String → Prop
  | [], _ => True
  | o :: os, x => depRel steps o x ∧ OpensChain steps os o

lemma opensChain_transGen {steps : List FlowStep} :
    ∀ {opens : List String} {x : String}, OpensChain steps opens x →
      ∀ o ∈ opens, Relation.TransGen (depRel steps) o x := by
  intro opens
  induction opens with
  | nil => intro x _ o ho; cases ho
  | cons o1 os ihc =>
    intro x h o ho
    rcases List.mem_cons.mp ho with rfl | ho0
    · exact Relation.TransGen.single h.1
    · exact Relation.TransGen.tail (ihc h.2 o ho0) h.1

/-- `visit` never removes anything from the visited set (no invariant
needed). -/
lemma visitStep_visited_mono (steps : List FlowStep) :
    ∀ (fuel : Nat) (stepId : String) (st : SortState),
      ∀ x ∈ st.visited, x ∈ (visitStep steps fuel stepId st).visited := by
  intro fuel
  induction fuel with
  | zero => intro stepId st x hx; exact hx
  | succ fuel ih =>
    intro stepId st x hx
    by_cases hid : stepId ∈ st.visited
    · simpa [visitStep, if_pos hid] using hx
    · cases hfind : findStep steps stepId with
      | none => simp only [visitStep, if_neg hid, hfind]; exact List.mem_cons_of_mem _ hx
      | some step =>
        simp only [visitStep, if_neg hid, hfind]
        have fold_mono : ∀ (deps : List String) (st' : SortState),
            ∀ y ∈ st'.visited,
              y ∈ (deps.foldl (fun acc dep => visitStep steps fuel dep acc) st').visited := by
          intro deps
          induction deps with
          | nil => intro st' y hy; exact hy
          | cons d rest ihd =>
            intro st' y hy
            simp only [List.foldl_cons]
            exact ihd (visitStep steps fuel d st') y (ih d st' y hy)
        exact fold_mono step.dependencies ⟨stepId :: st.visited, st.sorted⟩ x
          (List.mem_cons_of_mem _ hx)

/-- Folding `visit` over a list never removes anything from the visited set. -/
lemma foldVisit_visited_mono (steps : List FlowStep) (fuel : Nat) :
    ∀ (deps : List String) (st : SortState),
      ∀ x ∈ st.visited,
        x ∈ (deps.foldl (fun acc dep => visitStep steps fuel dep acc) st).visited := by
  intro deps
  induction deps with
  | nil => intro st x hx; exact hx
  | cons d rest ihd =>
    intro st x hx
    simp only [List.foldl_cons]
    exact ihd (visitStep steps fuel d st) x (visitStep_visited_mono steps fuel d st x hx)

/-- `visit` puts its argument into the visited set whenever it has fuel. -/
lemma visitStep_progress (steps : List FlowStep) :
    ∀ (fuel : Nat) (stepId : String) (st : SortState),
      0 < fuel → stepId ∈ (visitStep steps fuel stepId st).visited := by
  intro fuel stepId st hf
  cases fuel with
  | zero => cases hf
  | succ fuel =>
    by_cases hid : stepId ∈ st.visited
    · simpa [visitStep, if_pos hid] using hid
    · cases hfind : findStep steps stepId with
      | none =>
        simp only [visitStep, if_neg hid, hfind]
        exact List.mem_cons_self _ _
      | some step =>
        simp only [visitStep, if_neg hid, hfind]
        exact foldVisit_visited_mono steps fuel step.dependencies
          ⟨stepId :: st.visited, st.sorted⟩ stepId (List.mem_cons_self _ _)

/-- After folding `visit` over a dependency list with positive fuel, every
listed dependency id is visited. -/
lemma foldVisit_deps_visited (steps : List FlowStep) (fuel : Nat) (hf : 0 < fuel) :
    ∀ (deps : List String) (st : SortState),
      ∀ d ∈ deps,
        d ∈ (deps.foldl (fun acc dep => visitStep steps fuel dep acc) st).visited := by
  intro deps
  induction deps with
  | nil => intro st d hd; cases hd
  | cons d0 rest ihd =>
    intro st d hd
    simp only [List.foldl_cons]
    rcases List.mem_cons.mp hd with rfl | hd0
    · exact foldVisit_visited_mono steps fuel rest (visitStep steps fuel d st) d
        (visitStep_progress steps fuel d st hf)
    · exact ihd (visitStep steps fuel d0 st) d hd0

/-- Entering a fresh DFS frame preserves the invariant with the frame id
opened. -/
lemma SortInv.push {steps : List FlowStep} {st : SortState} {opens : List String}
    {stepId : String} (hinv : SortInv steps st opens) (hid : stepId ∉ st.visited) :
    SortInv steps ⟨stepId :: st.visited, st.sorted⟩ (stepId :: opens) := by
  refine ⟨hinv.find_sorted, hinv.nodup_sorted, ?_, ?_, ?_, ?_⟩
  · intro x hx; exact List.mem_cons_of_mem _ (hinv.sorted_vis x hx)
  · intro o ho
    rcases List.mem_cons.mp ho with rfl | ho0
    · exact List.mem_cons_self _ _
    · exact List.mem_cons_of_mem _ (hinv.opens_vis o ho0)
  · intro x hx hpres
    rcases List.mem_cons.mp hx with rfl | hx0
    · exact Or.inr (List.mem_cons_self _ _)
    · rcases hinv.vis_covered x hx0 hpres with h | h
      · exact Or.inl h
      · exact Or.inr (List.mem_cons_of_mem _ h)
  · intro x hx hmem
    rcases List.mem_cons.mp hmem with rfl | hmem0
    · exact hid (hinv.sorted_vis x hx)
    · exact hinv.sorted_not_open x hx hmem0

lemma visitStep_order (steps : List FlowStep) (hac : Acyclic steps)
    (hfr : FullyReferenced steps) :
    ∀ (fuel : Nat) (stepId : String) (st : SortState) (opens : List String),
      SortInv steps st opens →
      GoodOrder st.sorted →
      OpensChain steps opens stepId →
      remainingIds steps st.visited + 1 ≤ fuel →
      GoodOrder (visitStep steps fuel stepId st).sorted := by
  intro fuel
  induction fuel with
  | zero => intro stepId st opens _ hgo _ _; exact hgo
  | succ fuel ih =>
    intro stepId st opens hinv hgo hch hfl
    by_cases hid : stepId ∈ st.visited
    · simpa [visitStep, if_pos hid] using hgo
    · cases hfind : findStep steps stepId with
      | none => simp only [visitStep, if_neg hid, hfind]; exact hgo
      | some step =>
        simp only [visitStep, if_neg hid, hfind]
        have hstep := findStep_eq_some hfind
        have hpres : stepId ∈ presentIds steps :=
          present_iff.mp (by rw [hfind]; rfl)
        have hrem1 : remainingIds steps (stepId :: st.visited) + 1 =
            remainingIds steps st.visited := remainingIds_cons hpres hid
        have hfpos : 0 < fuel := by omega
        have hinv1 := hinv.push hid
        -- fold over the dependencies, keeping invariant and ordering
        have fold_order : ∀ (deps : List String) (st' : SortState),
            (∀ d ∈ deps, depRel steps stepId d) →
            SortInv steps st' (stepId :: opens) →
            GoodOrder st'.sorted →
            (∀ x ∈ (⟨stepId :: st.visited, st.sorted⟩ : SortState).visited,
              x ∈ st'.visited) →
            SortInv steps (deps.foldl (fun acc dep => visitStep steps fuel dep acc) st')
                (stepId :: opens) ∧
            GoodOrder (deps.foldl (fun acc dep => visitStep steps fuel dep acc) st').sorted ∧
            (∀ x ∈ (⟨stepId :: st.visited, st.sorted⟩ : SortState).visited,
              x ∈ (deps.foldl (fun acc dep => visitStep steps fuel dep acc) st').visited) := by
          intro deps
          induction deps with
          | nil => intro st' _ h1 h2 h3; exact ⟨h1, h2, h3⟩
          | cons d rest ihd =>
            intro st' hdeps h1 h2 h3
            have hflst : remainingIds steps st'.visited + 1 ≤ fuel := by
              have h4 : remainingIds steps st'.visited ≤
                  remainingIds steps (stepId :: st.visited) :=
                remainingIds_mono h3
              omega
            have hgo1 : GoodOrder (visitStep steps fuel d st').sorted :=
              ih d st' (stepId :: opens) h1 h2
                ⟨hdeps d (List.mem_cons_self _ _), hch⟩ hflst
            rcases visitStep_inv steps fuel d st' (stepId :: opens) h1 with
              ⟨g1, g2, _, _⟩
            simp only [List.foldl_cons]
            exact ihd (visitStep steps fuel d st')
              (fun x hx => hdeps x (List.mem_cons_of_mem _ hx)) g1 hgo1
              (fun x hx => g2 x (h3 x hx))
        have hdeps_rel : ∀ d ∈ step.dependencies, depRel steps stepId d :=
          fun d hd => ⟨step, hfind, hd⟩
        rcases fold_order step.dependencies ⟨stepId :: st.visited, st.sorted⟩
            hdeps_rel hinv1 hgo (fun x hx => hx) with ⟨hinv2, hgo2, hmono2⟩
        set st2 := step.dependencies.foldl (fun acc dep => visitStep steps fuel dep acc)
          (⟨stepId :: st.visited, st.sorted⟩ : SortState) with hst2
        have hdepsvis : ∀ d ∈ step.dependencies, d ∈ st2.visited :=
          foldVisit_deps_visited steps fuel hfpos step.dependencies
            ⟨stepId :: st.visited, st.sorted⟩
        -- every dependency of the pushed step is already in the output
        have hdeps_sorted : ∀ d ∈ step.dependencies, d ∈ sortedIds st2 := by
          intro d hd
          have hdp : (findStep steps d).isSome := hfr step hstep.1 d hd
          rcases hinv2.vis_covered d (hdepsvis d hd) hdp with h | h
          · exact h
          · exfalso
            rcases List.mem_cons.mp h with rfl | h0
            · exact hac d (Relation.TransGen.single ⟨step, hfind, hd⟩)
            · exact hac d (Relation.TransGen.tail
                (opensChain_transGen hch d h0) ⟨step, hfind, hd⟩)
        -- the appended list is still well ordered
        intro j hj d hd
        have hlen : (st2.sorted ++ [step]).length = st2.sorted.length + 1 := by simp
        by_cases hjlt : j < st2.sorted.length
        · have hget : (st2.sorted ++ [step]).get ⟨j, hj⟩ = st2.sorted.get ⟨j, hjlt⟩ := by
            simp [List.get_eq_getElem, List.getElem_append_left hjlt]
          have htake : (st2.sorted ++ [step]).take j = st2.sorted.take j :=
            List.take_append_of_le_length (le_of_lt hjlt)
          rw [hget] at hd
          rw [htake]
          exact hgo2 j hjlt d hd
        · have hjeq : j = st2.sorted.length := by
            rw [hlen] at hj; omega
          subst hjeq
          have hget : (st2.sorted ++ [step]).get ⟨st2.sorted.length, hj⟩ = step := by
            simp [List.get_eq_getElem]
          have htake : (st2.sorted ++ [step]).take st2.sorted.length = st2.sorted :=
            List.take_left st2.sorted [step]
          rw [hget] at hd
          rw [htake]
          exact hdeps_sorted d hd

/-- For acyclic, fully-referenced flows, the full `optimizeFlow` traversal
produces a dependency-respecting order. -/
lemma optimizeFlow_order (f : Flow) (hac : Acyclic f.steps)
    (hfr : FullyReferenced f.steps) : GoodOrder (optimizeFlow f).steps := by
  have hinv0 : SortInv f.steps (⟨[], []⟩ : SortState) [] := by
    refine ⟨?_, ?_, ?_, ?_, ?_, ?_⟩ <;> simp [sortedIds]
  have hgo0 : GoodOrder ((⟨[], []⟩ : SortState) : SortState).sorted := by
    intro j hj; simp at hj
  have hflbound : ∀ v : List String,
      remainingIds f.steps v + 1 ≤ f.steps.length + 1 := by
    intro v
    have h1 : remainingIds f.steps v ≤ (presentIds f.steps).card :=
      Finset.card_le_card (Finset.sdiff_subset)
    have h2 : (presentIds f.steps).card ≤ (f.steps.map FlowStep.id).length :=
      List.toFinset_card_le _
    simp only [List.length_map] at h2
    omega
  have main : ∀ (l : List FlowStep) (st : SortState),
      SortInv f.steps st [] → GoodOrder st.sorted →
      SortInv f.steps
        (l.foldl (fun acc s => visitStep f.steps (f.steps.length + 1) s.id acc) st) [] ∧
      GoodOrder
        (l.foldl (fun acc s => visitStep f.steps (f.steps.length + 1) s.id acc) st).sorted := by
    intro l
    induction l with
    | nil => intro st h1 h2; exact ⟨h1, h2⟩
    | cons s rest ihl =>
      intro st h1 h2
      have hgo1 : GoodOrder (visitStep f.steps (f.steps.length + 1) s.id st).sorted :=
        visitStep_order f.steps hac hfr (f.steps.length + 1) s.id st [] h1 h2
          trivial (hflbound st.visited)
      rcases visitStep_inv f.steps (f.steps.length + 1) s.id st [] h1 with ⟨g1, _, _, _⟩
      simp only [List.foldl_cons]
      exact ihl (visitStep f.steps (f.steps.length + 1) s.id st) g1 hgo1
  exact (main f.steps ⟨[], []⟩ hinv0 hgo0).2

/-! ### Completeness of the cycle detection in `validateFlow` -/

/-- Every visited id that is not currently on the DFS path is certified
cycle-free. -/
def Safe (steps : List FlowStep) (visited path : List String) : Prop :=
  ∀ u ∈ visited, u ∉ path → ¬ Relation.TransGen (depRel steps) u u

/-- Split a transitive chain at its first edge. -/
lemma transGen_head_cases {r : String → String → Prop} {a b : String}
    (h : Relation.TransGen r a b) :
    ∃ c, r a c ∧ (c = b ∨ Relation.TransGen r c b) := by
  induction h with
  | single h1 => exact ⟨_, h1, Or.inl rfl⟩
  | tail h1 h2 ihx =>
    rcases ihx with ⟨c, hc, hcb⟩
    rcases hcb with rfl | htg
    · exact ⟨c, hc, Or.inr (Relation.TransGen.single h2)⟩
    · exact ⟨c, hc, Or.inr (Relation.TransGen.tail htg h2)⟩

/-- Fuel measure for `checkDependencies`: present ids not on the path. -/
def remainingPath (steps : List FlowStep) (path : List String) : Nat :=
  (presentIds steps \ path.toFinset).card

lemma remainingPath_append {steps : List FlowStep} {path : List String} {x : String}
    (h1 : x ∈ presentIds steps) (h2 : x ∉ path) :
    remainingPath steps (path ++ [x]) + 1 = remainingPath steps path := by
  have hx : x ∈ presentIds steps \ path.toFinset :=
    Finset.mem_sdiff.mpr ⟨h1, fun hc => h2 (List.mem_toFinset.mp hc)⟩
  have hts : (path ++ [x]).toFinset = insert x path.toFinset := by
    rw [List.toFinset_append, Finset.insert_eq, Finset.union_comm]
    simp
  have : presentIds steps \ (path ++ [x]).toFinset =
      (presentIds steps \ path.toFinset).erase x := by
    rw [hts, Finset.sdiff_insert]
  rw [remainingPath, this, remainingPath, Finset.card_erase_add_one hx]

/-- `checkDependencies` never removes visited marks. -/
lemma checkDeps_visited_mono (steps : List FlowStep) :
    ∀ (fuel : Nat) (stepId : String) (path : List String) (st : CheckState),
      ∀ x ∈ st.visited,
        x ∈ (checkDependencies steps fuel stepId path st).visited := by
  intro fuel
  induction fuel with
  | zero => intro stepId path st x hx; exact hx
  | succ fuel ih =>
    intro stepId path st x hx
    by_cases hp : stepId ∈ path
    · simpa [checkDependencies, if_pos hp] using hx
    · by_cases hv : stepId ∈ st.visited
      · simpa [checkDependencies, if_neg hp, if_pos hv] using hx
      · cases hfind : findStep steps stepId with
        | none =>
          simp only [checkDependencies, if_neg hp, if_neg hv, hfind]
          exact List.mem_cons_of_mem _ hx
        | some step =>
          simp only [checkDependencies, if_neg hp, if_neg hv, hfind]
          have fold_mono : ∀ (deps : List String) (st' : CheckState),
              ∀ y ∈ st'.visited,
                y ∈ (deps.foldl
                  (fun acc dep => checkDependencies steps fuel dep (path ++ [stepId]) acc)
                  st').visited := by
            intro deps
            induction deps with
            | nil => intro st' y hy; exact hy
            | cons d rest ihd =>
              intro st' y hy
              simp only [List.foldl_cons]
              exact ihd _ y (ih d (path ++ [stepId]) st' y hy)
          exact fold_mono step.dependencies ⟨stepId :: st.visited, st.errors⟩ x
            (List.mem_cons_of_mem _ hx)

/-- `checkDependencies` only ever appends to the error array, and every
appended message is a `cycleMsg`. -/
lemma checkDeps_errors_extend (steps : List FlowStep) :
    ∀ (fuel : Nat) (stepId : String) (path : List String) (st : CheckState),
      ∃ t, (checkDependencies steps fuel stepId path st).errors = st.errors ++ t ∧
        ∀ e ∈ t, ∃ p x, e = cycleMsg p x := by
  intro fuel
  induction fuel with
  | zero => intro stepId path st; exact ⟨[], by simp [checkDependencies], by simp⟩
  | succ fuel ih =>
    intro stepId path st
    by_cases hp : stepId ∈ path
    · refine ⟨[cycleMsg path stepId], ?_, ?_⟩
      · simp [checkDependencies, if_pos hp]
      · intro e he
        rcases List.mem_singleton.mp he with rfl
        exact ⟨path, stepId, rfl⟩
    · by_cases hv : stepId ∈ st.visited
      · exact ⟨[], by simp [checkDependencies, if_neg hp, if_pos hv], by simp⟩
      · cases hfind : findStep steps stepId with
        | none =>
          exact ⟨[], by simp [checkDependencies, if_neg hp, if_neg hv, hfind], by simp⟩
        | some step =>
          simp only [checkDependencies, if_neg hp, if_neg hv, hfind]
          have fold_ext : ∀ (deps : List String) (st' : CheckState),
              ∃ t, (deps.foldl
                  (fun acc dep => checkDependencies steps fuel dep (path ++ [stepId]) acc)
                  st').errors = st'.errors ++ t ∧
                ∀ e ∈ t, ∃ p x, e = cycleMsg p x := by
            intro deps
            induction deps with
            | nil => intro st'; exact ⟨[], by simp, by simp⟩
            | cons d rest ihd =>
              intro st'
              rcases ih d (path ++ [stepId]) st' with ⟨t1, ht1, hs1⟩
              rcases ihd (checkDependencies steps fuel d (path ++ [stepId]) st') with
                ⟨t2, ht2, hs2⟩
              refine ⟨t1 ++ t2, ?_, ?_⟩
              · simp only [List.foldl_cons]
                rw [ht2, ht1, List.append_assoc]
              · intro e he
                rcases List.mem_append.mp he with h | h
                · exact hs1 e h
                · exact hs2 e h
          exact fold_ext step.dependencies ⟨stepId :: st.visited, st.errors⟩

/-- Main completeness invariant of the cycle DFS: a run that appends no error
(with sufficient fuel) visits its argument and certifies every visited id off
the current path as cycle-free. -/
lemma checkDeps_main (steps : List FlowStep) :
    ∀ (fuel : Nat) (stepId : String) (path : List String) (st : CheckState),
      (∀ p ∈ path, p ∈ st.visited) →
      Safe steps st.visited path →
      remainingPath steps path + 1 ≤ fuel →
      (checkDependencies steps fuel stepId path st).errors = st.errors →
      stepId ∈ (checkDependencies steps fuel stepId path st).visited ∧
      stepId ∉ path ∧
      Safe steps (checkDependencies steps fuel stepId path st).visited path := by
  intro fuel
  induction fuel with
  | zero => intro stepId path st _ _ hfl _; omega
  | succ fuel ih =>
    intro stepId path st hpv hsafe hfl herr
    by_cases hp : stepId ∈ path
    · -- the error branch fires, contradicting `herr`
      exfalso
      have : (checkDependencies steps (fuel + 1) stepId path st).errors =
          st.errors ++ [cycleMsg path stepId] := by
        simp [checkDependencies, if_pos hp]
      rw [this] at herr
      have := congrArg List.length herr
      simp at this
    · by_cases hv : stepId ∈ st.visited
      · have hres : checkDependencies steps (fuel + 1) stepId path st = st := by
          simp [checkDependencies, if_neg hp, if_pos hv]
        rw [hres]
        exact ⟨hv, hp, hsafe⟩
      · cases hfind : findStep steps stepId with
        | none =>
          have hres : checkDependencies steps (fuel + 1) stepId path st =
              ⟨stepId :: st.visited, st.errors⟩ := by
            simp [checkDependencies, if_neg hp, if_neg hv, hfind]
          rw [hres]
          refine ⟨List.mem_cons_self _ _, hp, ?_⟩
          intro u hu hup
          rcases List.mem_cons.mp hu with rfl | hu0
          · intro hcyc
            rcases transGen_head_cases hcyc with ⟨c, ⟨s, hfs, _⟩, _⟩
            rw [hfind] at hfs; cases hfs
          · exact hsafe u hu0 hup
        | some step =>
          have hres : checkDependencies steps (fuel + 1) stepId path st =
              step.dependencies.foldl
                (fun acc dep => checkDependencies steps fuel dep (path ++ [stepId]) acc)
                ⟨stepId :: st.visited, st.errors⟩ := by
            simp [checkDependencies, if_neg hp, if_neg hv, hfind]
          have hstep := findStep_eq_some hfind
          have hpres : stepId ∈ presentIds steps :=
            present_iff.mp (by rw [hfind]; rfl)
          have hrem1 : remainingPath steps (path ++ [stepId]) + 1 =
              remainingPath steps path := remainingPath_append hpres hp
          have hfl1 : remainingPath steps (path ++ [stepId]) + 1 ≤ fuel := by omega
          set path1 := path ++ [stepId] with hpath1
          set st1 : CheckState := ⟨stepId :: st.visited, st.errors⟩ with hst1
          have hpv1 : ∀ p ∈ path1, p ∈ st1.visited := by
            intro p hpm
            rcases List.mem_append.mp hpm with h | h
            · exact List.mem_cons_of_mem _ (hpv p h)
            · rcases List.mem_singleton.mp h with rfl
              exact List.mem_cons_self _ _
          have hsafe1 : Safe steps st1.visited path1 := by
            intro u hu hup
            rcases List.mem_cons.mp hu with rfl | hu0
            · exact absurd (List.mem_append.mpr (Or.inr (List.mem_singleton.mpr rfl))) hup
            · exact hsafe u hu0 fun hc =>
                hup (List.mem_append.mpr (Or.inl hc))
          -- fold over the dependencies keeping the invariant along `path1`
          have fold_main : ∀ (deps : List String) (st' : CheckState),
              (∀ p ∈ path1, p ∈ st'.visited) →
              Safe steps st'.visited path1 →
              (deps.foldl
                (fun acc dep => checkDependencies steps fuel dep path1 acc)
                st').errors = st'.errors →
              (∀ x ∈ st'.visited,
                x ∈ (deps.foldl
                  (fun acc dep => checkDependencies steps fuel dep path1 acc)
                  st').visited) ∧
              (∀ d ∈ deps, d ∈ (deps.foldl
                  (fun acc dep => checkDependencies steps fuel dep path1 acc)
                  st').visited ∧ d ∉ path1) ∧
              Safe steps (deps.foldl
                  (fun acc dep => checkDependencies steps fuel dep path1 acc)
                  st').visited path1 := by
            intro deps
            induction deps with
            | nil =>
              intro st' _ h2 _
              exact ⟨fun x hx => hx, fun d hd => absurd hd (List.not_mem_nil d), h2⟩
            | cons d rest ihd =>
              intro st' h1 h2 h3
              simp only [List.foldl_cons] at h3 ⊢
              -- split the unchanged-errors fact between the head call and the rest
              rcases checkDeps_errors_extend steps fuel d path1 st' with ⟨t1, ht1, _⟩
              have hrest_ext : ∀ (l : List String) (stx : CheckState),
                  ∃ t, (l.foldl
                    (fun acc dep => checkDependencies steps fuel dep path1 acc)
                    stx).errors = stx.errors ++ t := by
                intro l
                induction l with
                | nil => intro stx; exact ⟨[], by simp⟩
                | cons a as iha =>
                  intro stx
                  rcases checkDeps_errors_extend steps fuel a path1 stx with ⟨u1, hu1, _⟩
                  rcases iha (checkDependencies steps fuel a path1 stx) with ⟨u2, hu2⟩
                  refine ⟨u1 ++ u2, ?_⟩
                  simp only [List.foldl_cons]
                  rw [hu2, hu1, List.append_assoc]
              rcases hrest_ext rest (checkDependencies steps fuel d path1 st') with ⟨t2, ht2⟩
              rw [ht2, ht1, List.append_assoc] at h3
              have h3' : st'.errors ++ (t1 ++ t2) = st'.errors ++ [] := by
                rw [List.append_nil]; exact h3
              rcases List.append_eq_nil.mp (List.append_cancel_left h3') with
                ⟨ht1nil, ht2nil⟩
              have herr1 : (checkDependencies steps fuel d path1 st').errors = st'.errors := by
                rw [ht1, ht1nil, List.append_nil]
              have herr2 : (rest.foldl
                  (fun acc dep => checkDependencies steps fuel dep path1 acc)
                  (checkDependencies steps fuel d path1 st')).errors =
                  (checkDependencies steps fuel d path1 st').errors := by
                rw [ht2, ht2nil, List.append_nil]
              rcases ih d path1 st' h1 h2 hfl1 herr1 with ⟨g1, g2, g3⟩
              have hmono1 := checkDeps_visited_mono steps fuel d path1 st'
              rcases ihd (checkDependencies steps fuel d path1 st')
                  (fun p hpm => hmono1 p (h1 p hpm)) g3 herr2 with ⟨k1, k2, k3⟩
              refine ⟨fun x hx => k1 x (hmono1 x hx), ?_, k3⟩
              intro e he
              rcases List.mem_cons.mp he with rfl | he0
              · exact ⟨k1 e g1, g2⟩
              · exact k2 e he0
          rw [hres] at herr ⊢
          have herr' : (step.dependencies.foldl
              (fun acc dep => checkDependencies steps fuel dep path1 acc)
              st1).errors = st1.errors := herr
          rcases fold_main step.dependencies st1 hpv1 hsafe1 herr' with ⟨m1, m2, m3⟩
          refine ⟨m1 stepId (List.mem_cons_self _ _), hp, ?_⟩
          -- upgrade the certificate from `path1` to `path`: `stepId` is closed
          intro u hu hup
          by_cases hueq : u = stepId
          · subst hueq
            intro hcyc
            rcases transGen_head_cases hcyc with ⟨c, ⟨s, hfs, hdep⟩, hcb⟩
            rw [hfind] at hfs
            injection hfs with hfs
            subst hfs
            rcases m2 c hdep with ⟨hcv, hcpath1⟩
            rcases hcb with rfl | htg
            · -- a self edge: `c = stepId` would have to sit on `path1`
              exact hcpath1 (List.mem_append.mpr (Or.inr (List.mem_singleton.mpr rfl)))
            · -- an edge u -> c with c ->* u closes a cycle at `c`
              exact m3 c hcv hcpath1
                (Relation.TransGen.tail htg ⟨step, hfind, hdep⟩)
          · have hup1 : u ∉ path1 := by
              intro hc
              rcases List.mem_append.mp hc with h | h
              · exact hup h
              · exact hueq (List.mem_singleton.mp h)
            exact m3 u hu hup1

/-- If the cycle-detection phase of `validateFlow` reports nothing, the
dependency relation really is acyclic. -/
lemma cyclePhase_acyclic (steps : List FlowStep)
    (h : (cyclePhase steps).errors = []) : Acyclic steps := by
  have hflbound : remainingPath steps [] + 1 ≤ steps.length + 1 := by
    have h1 : remainingPath steps [] ≤ (presentIds steps).card :=
      Finset.card_le_card (Finset.sdiff_subset)
    have h2 : (presentIds steps).card ≤ (steps.map FlowStep.id).length :=
      List.toFinset_card_le _
    simp only [List.length_map] at h2
    omega
  have fold_ext : ∀ (l : List FlowStep) (st : CheckState),
      ∃ t, (l.foldl
        (fun st s => checkDependencies steps (steps.length + 1) s.id [] st) st).errors =
        st.errors ++ t := by
    intro l
    induction l with
    | nil => intro st; exact ⟨[], by simp⟩
    | cons s rest ihl =>
      intro st
      rcases checkDeps_errors_extend steps (steps.length + 1) s.id [] st with ⟨t1, ht1, _⟩
      rcases ihl (checkDependencies steps (steps.length + 1) s.id [] st) with ⟨t2, ht2⟩
      refine ⟨t1 ++ t2, ?_⟩
      simp only [List.foldl_cons]
      rw [ht2, ht1, List.append_assoc]
  have main : ∀ (l : List FlowStep) (st : CheckState),
      Safe steps st.visited [] →
      (l.foldl
        (fun st s => checkDependencies steps (steps.length + 1) s.id [] st) st).errors =
        st.errors →
      (∀ s ∈ l, s.id ∈ (l.foldl
        (fun st s => checkDependencies steps (steps.length + 1) s.id [] st) st).visited) ∧
      Safe steps (l.foldl
        (fun st s => checkDependencies steps (steps.length + 1) s.id [] st) st).visited [] := by
    intro l
    induction l with
    | nil =>
      intro st hsafe _
      exact ⟨fun s hs => absurd hs (List.not_mem_nil s), hsafe⟩
    | cons s rest ihl =>
      intro st hsafe herr
      simp only [List.foldl_cons] at herr ⊢
      rcases checkDeps_errors_extend steps (steps.length + 1) s.id [] st with ⟨t1, ht1, _⟩
      rcases fold_ext rest (checkDependencies steps (steps.length + 1) s.id [] st) with
        ⟨t2, ht2⟩
      rw [ht2, ht1, List.append_assoc] at herr
      have herr' : st.errors ++ (t1 ++ t2) = st.errors ++ [] := by
        rw [List.append_nil]; exact herr
      rcases List.append_eq_nil.mp (List.append_cancel_left herr') with ⟨ht1nil, ht2nil⟩
      have herr1 : (checkDependencies steps (steps.length + 1) s.id [] st).errors =
          st.errors := by rw [ht1, ht1nil, List.append_nil]
      have herr2 : (rest.foldl
          (fun st s => checkDependencies steps (steps.length + 1) s.id [] st)
          (checkDependencies steps (steps.length + 1) s.id [] st)).errors =
          (checkDependencies steps (steps.length + 1) s.id [] st).errors := by
        rw [ht2, ht2nil, List.append_nil]
      rcases checkDeps_main steps (steps.length + 1) s.id [] st
          (fun p hp => absurd hp (List.not_mem_nil p)) hsafe hflbound herr1 with
        ⟨g1, _, g3⟩
      rcases ihl (checkDependencies steps (steps.length + 1) s.id [] st) g3 herr2 with
        ⟨k1, k2⟩
      have hmono : ∀ x ∈ (checkDependencies steps (steps.length + 1) s.id [] st).visited,
          x ∈ (rest.foldl
            (fun st s => checkDependencies steps (steps.length + 1) s.id [] st)
            (checkDependencies steps (steps.length + 1) s.id [] st)).visited := by
        have fold_mono : ∀ (l2 : List FlowStep) (stx : CheckState),
            ∀ y ∈ stx.visited, y ∈ (l2.foldl
              (fun st s => checkDependencies steps (steps.length + 1) s.id [] st)
              stx).visited := by
          intro l2
          induction l2 with
          | nil => intro stx y hy; exact hy
          | cons a as iha =>
            intro stx y hy
            simp only [List.foldl_cons]
            exact iha _ y (checkDeps_visited_mono steps (steps.length + 1) a.id [] stx y hy)
        exact fold_mono rest _
      refine ⟨?_, k2⟩
      intro t ht
      rcases List.mem_cons.mp ht with rfl | ht0
      · exact hmono t.id g1
      · exact k1 t ht0
  intro u hcyc
  rcases transGen_head_cases hcyc with ⟨c, ⟨s, hfs, _⟩, _⟩
  have hs := findStep_eq_some hfs
  rcases main steps ⟨[], []⟩ (fun v hv _ => absurd hv (List.not_mem_nil v)) h with ⟨h1, h2⟩
  exact h2 u (hs.2 ▸ h1 s hs.1) (List.not_mem_nil u) hcyc

/-- Every message produced by the cycle phase is a `cycleMsg`. -/
lemma cyclePhase_errors_shape (steps : List FlowStep) :
    ∀ e ∈ (cyclePhase steps).errors, ∃ p x, e = cycleMsg p x := by
  have main : ∀ (l : List FlowStep) (st : CheckState),
      (∀ e ∈ st.errors, ∃ p x, e = cycleMsg p x) →
      ∀ e ∈ (l.foldl
        (fun st s => checkDependencies steps (steps.length + 1) s.id [] st) st).errors,
        ∃ p x, e = cycleMsg p x := by
    intro l
    induction l with
    | nil => intro st hst e he; exact hst e he
    | cons s rest ihl =>
      intro st hst e he
      simp only [List.foldl_cons] at he
      rcases checkDeps_errors_extend steps (steps.length + 1) s.id [] st with ⟨t1, ht1, hsh⟩
      refine ihl (checkDependencies steps (steps.length + 1) s.id [] st) ?_ e he
      intro e1 he1
      rw [ht1] at he1
      rcases List.mem_append.mp he1 with h | h
      · exact hst e1 h
      · exact hsh e1 h
  exact main steps ⟨[], []⟩ (by simp)

/-- The missing-dependency folds only append messages. -/
lemma missingPhase_extends (steps : List FlowStep) :
    ∀ (l : List FlowStep) (errors : List String),
      ∃ t, (l.foldl
        (fun acc s => s.dependencies.foldl
          (fun acc2 dep => if (findStep steps dep).isSome then acc2
            else acc2 ++ [missingMsg s.id dep]) acc)
        errors) = errors ++ t := by
  have inner_ext : ∀ (deps : List String) (sid : String) (acc : List String),
      ∃ t, deps.foldl
        (fun acc2 dep => if (findStep steps dep).isSome then acc2
          else acc2 ++ [missingMsg sid dep]) acc = acc ++ t := by
    intro deps sid
    induction deps with
    | nil => intro acc; exact ⟨[], by simp⟩
    | cons d rest ihd =>
      intro acc
      simp only [List.foldl_cons]
      by_cases hd : (findStep steps d).isSome
      · rcases ihd acc with ⟨t, ht⟩
        exact ⟨t, by rw [if_pos hd]; exact ht⟩
      · rcases ihd (acc ++ [missingMsg sid d]) with ⟨t, ht⟩
        refine ⟨[missingMsg sid d] ++ t, ?_⟩
        rw [if_neg hd, ht, List.append_assoc]
  intro l
  induction l with
  | nil => intro errors; exact ⟨[], by simp⟩
  | cons s rest ihl =>
    intro errors
    simp only [List.foldl_cons]
    rcases inner_ext s.dependencies s.id errors with ⟨t1, ht1⟩
    rcases ihl (s.dependencies.foldl
      (fun acc2 dep => if (findStep steps dep).isSome then acc2
        else acc2 ++ [missingMsg s.id dep]) errors) with ⟨t2, ht2⟩
    exact ⟨t1 ++ t2, by rw [ht2, ht1, List.append_assoc]⟩

/-- A dangling dependency always produces its message in the missing phase. -/
lemma missingPhase_mem (steps : List FlowStep) {s : FlowStep} {d : String}
    (hd : d ∈ s.dependencies) (hnone : findStep steps d = none) :
    ∀ (l : List FlowStep) (errors : List String), s ∈ l →
      missingMsg s.id d ∈ (l.foldl
        (fun acc s => s.dependencies.foldl
          (fun acc2 dep => if (findStep steps dep).isSome then acc2
            else acc2 ++ [missingMsg s.id dep]) acc)
        errors) := by
  have inner_ext : ∀ (deps : List String) (acc : List String),
      ∃ t, deps.foldl
        (fun acc2 dep => if (findStep steps dep).isSome then acc2
          else acc2 ++ [missingMsg s.id dep]) acc = acc ++ t := by
    intro deps
    induction deps with
    | nil => intro acc; exact ⟨[], by simp⟩
    | cons d0 rest ihd =>
      intro acc
      simp only [List.foldl_cons]
      by_cases hd0 : (findStep steps d0).isSome
      · rcases ihd acc with ⟨t, ht⟩
        exact ⟨t, by rw [if_pos hd0]; exact ht⟩
      · rcases ihd (acc ++ [missingMsg s.id d0]) with ⟨t, ht⟩
        refine ⟨[missingMsg s.id d0] ++ t, ?_⟩
        rw [if_neg hd0, ht, List.append_assoc]
  have inner_mem : ∀ (deps : List String) (acc : List String), d ∈ deps →
      missingMsg s.id d ∈ deps.foldl
        (fun acc2 dep => if (findStep steps dep).isSome then acc2
          else acc2 ++ [missingMsg s.id dep]) acc := by
    intro deps
    induction deps with
    | nil => intro acc hmem; cases hmem
    | cons d0 rest ihd =>
      intro acc hmem
      simp only [List.foldl_cons]
      rcases List.mem_cons.mp hmem with rfl | hmem0
      · have hno : ¬ (findStep steps d).isSome = true := by rw [hnone]; simp
        rw [if_neg hno]
        rcases inner_ext rest (acc ++ [missingMsg s.id d]) with ⟨t, ht⟩
        rw [ht]
        exact List.mem_append.mpr (Or.inl
          (List.mem_append.mpr (Or.inr (List.mem_singleton.mpr rfl))))
      · exact ihd _ hmem0
  intro l
  induction l with
  | nil => intro errors hmem; cases hmem
  | cons s0 rest ihl =>
    intro errors hmem
    simp only [List.foldl_cons]
    rcases List.mem_cons.mp hmem with rfl | hmem0
    · have hin := inner_mem s.dependencies errors hd
      rcases missingPhase_extends steps rest (s.dependencies.foldl
        (fun acc2 dep => if (findStep steps dep).isSome then acc2
          else acc2 ++ [missingMsg s.id dep]) errors) with ⟨t, ht⟩
      rw [ht]
      exact List.mem_append.mpr (Or.inl hin)
    · exact ihl _ hmem0

lemma validateFlow_valid_eq (f : Flow) :
    (validateFlow f).valid = (validateFlow f).errors.isEmpty := rfl

lemma validateFlow_errors_eq (f : Flow) :
    (validateFlow f).errors = missingPhase f.steps (cyclePhase f.steps).errors := rfl

/-- Any flow with a dependency cycle fails validation with at least one
circular-dependency message. -/
lemma validateFlow_of_hasCycle (f : Flow) (hc : HasCycle f.steps) :
    (validateFlow f).valid = false ∧
    ∃ e ∈ (validateFlow f).errors, ∃ p x, e = cycleMsg p x := by
  have hne : (cyclePhase f.steps).errors ≠ [] := by
    intro h
    rcases hc with ⟨u, hcyc⟩
    exact cyclePhase_acyclic f.steps h u hcyc
  rcases missingPhase_extends f.steps f.steps (cyclePhase f.steps).errors with ⟨t, ht⟩
  have ht' : (validateFlow f).errors = (cyclePhase f.steps).errors ++ t := by
    rw [validateFlow_errors_eq]
    exact ht
  cases hce : (cyclePhase f.steps).errors with
  | nil => exact absurd hce hne
  | cons e0 es =>
    have he0c : e0 ∈ (cyclePhase f.steps).errors := by
      rw [hce]; exact List.mem_cons_self _ _
    have he0 : e0 ∈ (validateFlow f).errors := by
      rw [ht']
      exact List.mem_append.mpr (Or.inl he0c)
    refine ⟨?_, e0, he0, cyclePhase_errors_shape f.steps e0 he0c⟩
    rw [validateFlow_valid_eq]
    have : (validateFlow f).errors ≠ [] := List.ne_nil_of_mem he0
    cases hl : (validateFlow f).errors with
    | nil => exact absurd hl this
    | cons a as => rfl

/-- A dangling dependency fails validation and is reported by node and
missing id, whatever else the graph contains. -/
lemma validateFlow_of_missing (f : Flow) {s : FlowStep} {d : String}
    (hs : s ∈ f.steps) (hd : d ∈ s.dependencies)
    (hnone : findStep f.steps d = none) :
    (validateFlow f).valid = false ∧
    missingMsg s.id d ∈ (validateFlow f).errors := by
  have hmem : missingMsg s.id d ∈ (validateFlow f).errors := by
    rw [validateFlow_errors_eq]
    exact missingPhase_mem f.steps hd hnone f.steps _ hs
  refine ⟨?_, hmem⟩
  rw [validateFlow_valid_eq]
  have hne : (validateFlow f).errors ≠ [] := List.ne_nil_of_mem hmem
  cases hl : (validateFlow f).errors with
  | nil => exact absurd hl hne
  | cons a as => rfl

/-! ### Behaviour of the sequential engine and of the retry loop -/

/-- Enabled, succeeding steps are consumed one by one, each contributing its
result entry; the contributed entries do not depend on what follows. -/
lemma executeSequentialGo_ok_prefix {α : Type} :
    ∀ (pre : List (WorkflowStep α)),
      (∀ s ∈ pre, stepEnabled s = true ∧ (executeStep s).1.isOk = true) →
      ∃ rsv, rsv.map Prod.fst = pre.map WorkflowStep.id ∧
        ∀ (rest : List (WorkflowStep α)) (rs : List (String × α))
          (es : List (String × String)),
          executeSequentialGo (pre ++ rest) rs es =
            executeSequentialGo rest (rs ++ rsv) es := by
  intro pre
  induction pre with
  | nil =>
    refine fun _ => ⟨[], by simp, ?_⟩
    intro rest rs es
    simp
  | cons s pre1 ihp =>
    intro hpre
    rcases hpre s (List.mem_cons_self _ _) with ⟨hen, hok⟩
    cases hv : (executeStep s).1 with
    | error e => rw [hv] at hok; cases hok
    | ok v =>
      rcases ihp (fun t ht => hpre t (List.mem_cons_of_mem _ ht)) with ⟨rsv, hmap, hgo⟩
      refine ⟨(s.id, v) :: rsv, by simp [hmap], ?_⟩
      intro rest rs es
      have h1 : executeSequentialGo ((s :: pre1) ++ rest) rs es =
          executeSequentialGo (pre1 ++ rest) (rs ++ [(s.id, v)]) es := by
        simp [executeSequentialGo, hen, hv]
      rw [h1, hgo rest (rs ++ [(s.id, v)]) es, List.append_assoc]
      rfl

/-- An enabled step whose retry loop ends in an error stops the sequential
run on the spot: the remaining steps are not even looked at. -/
lemma executeSequentialGo_fail {α : Type} (f : WorkflowStep α)
    (rest : List (WorkflowStep α)) (rs : List (String × α))
    (es : List (String × String)) (hen : stepEnabled f = true) {e : String}
    (he : (executeStep f).1 = Except.error e) :
    executeSequentialGo (f :: rest) rs es = (rs, es ++ [(f.id, e)]) := by
  simp [executeSequentialGo, hen, he]

/-- When every attempt fails, the retry loop makes all of them and keeps the
outcome of the last one. -/
lemma execAttempts_all_fail {α : Type} (act : Nat → Except String α)
    (hfail : ∀ k, ∃ e, act k = Except.error e) :
    ∀ (remaining start : Nat),
      execAttempts act start remaining = (act (start + remaining), remaining + 1) := by
  intro remaining
  induction remaining with
  | zero => intro start; simp [execAttempts]
  | succ r ihr =>
    intro start
    rcases hfail start with ⟨e, he⟩
    have harith : start + 1 + r = start + (r + 1) := by omega
    simp [execAttempts, he, ihr (start + 1), harith]

/-! ### Further concrete fixtures for the claims -/

/-- A sequential workflow whose two steps mirror the cyclic `crossFlow`
(ids A and B); their actions succeed.  Used to show the executor performs no
graph validation. -/
def cyclicStepsWorkflow : Workflow Nat :=
  ⟨"cyc", [okStep "A" 0, okStep "B" 0], false⟩

/-- A `buildFlow` spec carrying only an id. -/
def dupSpec : PartialFlowStep := ⟨some "A", none, none, none, none, none⟩

/-- Sequential three-step workflow: P succeeds, A always fails, B succeeds. -/
def seqWitnessWorkflow : Workflow Nat :=
  ⟨"w2", [okStep "P" 5, failStep "A" "boom", okStep "B" 1], false⟩

/-- A rank function for `chainFlow` proving it acyclic. -/
lemma chainFlow_acyclic : Acyclic chainFlow.steps := by
  intro u
  apply no_cycle_of_rank
    (fun x => if x = "sync" then 0 else if x = "analyze" then 1 else 2)
  rintro a b ⟨s, hfs, hdep⟩
  have hmem := findStep_eq_some hfs
  have hs : s = mkStep "sync" [] ∨ s = mkStep "analyze" ["sync"] ∨
      s = mkStep "test" ["analyze"] := by
    simpa [chainFlow] using hmem.1
  rcases hs with rfl | rfl | rfl
  · simp [mkStep] at hdep
  · have hb : b = "sync" := by simpa [mkStep] using hdep
    have ha : a = "analyze" := by
      have := hmem.2; simpa [mkStep] using this.symm
    subst hb; subst ha; decide
  · have hb : b = "analyze" := by simpa [mkStep] using hdep
    have ha : a = "test" := by
      have := hmem.2; simpa [mkStep] using this.symm
    subst hb; subst ha; decide

/-! ### Claim theorems -/

/-- C1: the spec mandates layer-by-layer parallel execution: a node's action
is launched only after all its declared dependencies completed, and the
engine must never fire all nodes concurrently while ignoring dependencies.
The code does the opposite: `executeParallel` starts the async wrapper (and
hence the action) of every enabled step before awaiting anything, and
`WorkflowStep` carries no dependency data at all.  Here the flow declares
B → A (B depends on A), A's action always fails, yet B is launched and runs
to a recorded result. -/
theorem wf_C1_parallel_ignores_deps :
    validateFlow parallelDepFlow = ⟨true, []⟩ ∧
    launchedSteps parDepWorkflow.steps = ["A", "B"] ∧
    execute parDepWorkflow = ⟨false, [("B", 1)], [("A", "boom")]⟩ :=
  ⟨by decide, by decide, by decide⟩

/-- C2 counterexample: in the sequential run `[A fails, B]`, the not-yet-
attempted step B is recorded nowhere — neither in `results` nor in `errors`
— so it is not "marked skipped" as the claim states; there is no skipped
marking in the engine. -/
theorem wf_C2_counterexample :
    execute seqHaltWorkflow = ⟨false, [], [("A", "boom")]⟩ ∧
    "B" ∉ ((execute seqHaltWorkflow).results.map Prod.fst ++
      (execute seqHaltWorkflow).errors.map Prod.fst) :=
  ⟨by decide, by decide⟩

/-- C2 amended: in a sequential workflow, the first enabled step whose retry
loop ends in an error halts the run at once: the run's success is false, the
results map holds exactly the earlier steps, the errors map exactly the
failing step, every later step appears in neither map, and the outcome does
not depend on the later steps at all (their actions are never invoked).  The
engine has no optional-step notion and no skipped marking. -/
theorem wf_C2_amended {α : Type} (w : Workflow α) (pre post : List (WorkflowStep α))
    (f : WorkflowStep α) (hw : w.parallel = false)
    (hsteps : w.steps = pre ++ f :: post)
    (hnd : (w.steps.map WorkflowStep.id).Nodup)
    (hpre : ∀ s ∈ pre, stepEnabled s = true ∧ (executeStep s).1.isOk = true)
    (hen : stepEnabled f = true) (e : String)
    (he : (executeStep f).1 = Except.error e) :
    (execute w).success = false ∧
    (execute w).results.map Prod.fst = pre.map WorkflowStep.id ∧
    (execute w).errors = [(f.id, e)] ∧
    (∀ s ∈ post, s.id ∉ (execute w).results.map Prod.fst ∧
      s.id ∉ (execute w).errors.map Prod.fst) ∧
    (∀ post2 : List (WorkflowStep α),
      execute { w with steps := pre ++ f :: post2 } = execute w) := by
  rcases executeSequentialGo_ok_prefix pre hpre with ⟨rsv, hmap, hgo⟩
  clear hpre
  have hrun : ∀ post2 : List (WorkflowStep α),
      executeSequential (pre ++ f :: post2) = (rsv, [(f.id, e)]) := by
    intro post2
    unfold executeSequential
    rw [hgo (f :: post2) [] [], executeSequentialGo_fail f post2 ([] ++ rsv) [] hen he]
    simp
  have hex : ∀ post2 : List (WorkflowStep α),
      execute (⟨w.name, pre ++ f :: post2, w.parallel⟩ : Workflow α) =
        ⟨false, rsv, [(f.id, e)]⟩ := by
    intro post2
    unfold execute
    rw [hw]
    simp only [if_neg (Bool.false_ne_true)]
    rw [hrun post2]
    rfl
  have hwid : w = ⟨w.name, pre ++ f :: post, w.parallel⟩ := by
    cases w with
    | mk n s p => simpa using hsteps
  have hwex : execute w = ⟨false, rsv, [(f.id, e)]⟩ := by
    rw [hwid]; exact hex post
  have hids : pre.map WorkflowStep.id ++ f.id :: post.map WorkflowStep.id =
      w.steps.map WorkflowStep.id := by rw [hsteps]; simp
  rw [← hids] at hnd
  rcases List.nodup_append.mp hnd with ⟨_, hnd2, hdisj⟩
  refine ⟨by rw [hwex], by rw [hwex]; exact hmap, by rw [hwex], ?_, ?_⟩
  · intro s hs
    have hsid : s.id ∈ post.map WorkflowStep.id := List.mem_map_of_mem _ hs
    constructor
    · rw [hwex]
      show s.id ∉ rsv.map Prod.fst
      rw [hmap]
      intro hc
      exact hdisj hc (List.mem_cons_of_mem _ hsid)
    · rw [hwex]
      intro hc
      have : s.id = f.id := by simpa using hc
      have hfid : f.id ∉ post.map WorkflowStep.id := (List.nodup_cons.mp hnd2).1
      exact hfid (this ▸ hsid)
  · intro post2
    have h1 : ({ w with steps := pre ++ f :: post2 } : Workflow α) =
        ⟨w.name, pre ++ f :: post2, w.parallel⟩ := rfl
    rw [h1, hex post2, hwex]

/-- C2 amended, witnessed at the concrete workflow [P ok, A fails, B ok]. -/
theorem wf_C2_amended_witness :
    (execute seqWitnessWorkflow).success = false ∧
    (execute seqWitnessWorkflow).errors = [("A", "boom")] := by
  have hpre : ∀ s ∈ [okStep "P" 5], stepEnabled s = true ∧
      (executeStep s).1.isOk = true := by
    intro s hs
    have hseq : s = okStep "P" 5 := by simpa using hs
    subst hseq
    exact ⟨rfl, rfl⟩
  have h := wf_C2_amended seqWitnessWorkflow [okStep "P" 5] [okStep "B" 1]
    (failStep "A" "boom") rfl rfl (by decide) hpre rfl "boom" rfl
  exact ⟨h.1, h.2.2.1⟩

/-- C3: a step whose `retries` field resolves to N and whose action fails (or
times out — surfaced as the same rejection) on every attempt is attempted
exactly N + 1 times, and the recorded outcome is that of the final attempt.
The retry loop contains no delay construct: attempts are consecutive
invocations. -/
theorem wf_C3_retry_bound {α : Type} (step : WorkflowStep α) (N : Nat)
    (hretries : step.retries.getD 0 = N)
    (hfail : ∀ k, ∃ e, step.action k = Except.error e) :
    (executeStep step).2 = N + 1 ∧ (executeStep step).1 = step.action N := by
  have h := execAttempts_all_fail step.action hfail N 0
  unfold executeStep
  rw [hretries, h]
  simp

/-- C3 witnessed at a step with `retries = 2` that always fails: exactly 3
attempts. -/
theorem wf_C3_retry_bound_witness :
    (executeStep (α := Nat)
      ⟨"f", "f", fun _ => Except.error "x", none, some 2, none⟩).2 = 3 :=
  (wf_C3_retry_bound ⟨"f", "f", fun _ => Except.error "x", none, some 2, none⟩ 2
    rfl (fun _ => ⟨"x", rfl⟩)).1

/-- C4 counterexample: for `Graph{A deps:[B], B deps:[A]}` the error list is
exactly `["Circular dependency detected: A -> B -> A"]` — not the claimed
`["circular dependency: A -> B -> A"]` — and the executor refuses nothing:
running the (sequential) workflow whose steps mirror the cyclic graph simply
invokes the actions; no `ConfigurationError` exists anywhere in the code. -/
theorem fb_C4_counterexample :
    validateFlow crossFlow =
      ⟨false, ["Circular dependency detected: A -> B -> A"]⟩ ∧
    validateFlow crossFlow ≠
      ⟨false, ["circular dependency: A -> B -> A"]⟩ ∧
    execute cyclicStepsWorkflow = ⟨true, [("A", 0), ("B", 0)], []⟩ :=
  ⟨by decide, by decide, by decide⟩

/-- C4 amended: every flow containing a dependency cycle fails validation
with at least one error of the shape
`Circular dependency detected: <path> -> <id>` naming the offending path
(for the crossed pair, exactly that one message); `WorkflowBuilder.execute`
performs no graph validation — it runs the steps of a cyclic graph normally
and raises no `ConfigurationError` (no such error type exists). -/
theorem fb_C4_amended :
    (∀ f : Flow, HasCycle f.steps →
      (validateFlow f).valid = false ∧
      ∃ e ∈ (validateFlow f).errors, ∃ p x, e = cycleMsg p x) ∧
    validateFlow crossFlow =
      ⟨false, ["Circular dependency detected: A -> B -> A"]⟩ ∧
    execute cyclicStepsWorkflow = ⟨true, [("A", 0), ("B", 0)], []⟩ :=
  ⟨fun f hc => validateFlow_of_hasCycle f hc, by decide, by decide⟩

/-- C4 amended, witnessed at the crossed pair, whose cycle A → B → A is
exhibited explicitly. -/
theorem fb_C4_amended_witness : (validateFlow crossFlow).valid = false := by
  have hab : depRel crossFlow.steps "A" "B" :=
    ⟨mkStep "A" ["B"], by decide, by decide⟩
  have hba : depRel crossFlow.steps "B" "A" :=
    ⟨mkStep "B" ["A"], by decide, by decide⟩
  exact (fb_C4_amended.1 crossFlow
    ⟨"A", Relation.TransGen.tail (Relation.TransGen.single hab) hba⟩).1

/-- C5: for every valid graph — pairwise-distinct ids, acyclic, fully
referenced — `optimizeFlow` returns a permutation of the steps in which
every step appears after all of its dependencies (each step's dependencies
lie among the ids of the strictly earlier steps). -/
theorem fb_C5_topological_order (f : Flow)
    (hnd : (f.steps.map FlowStep.id).Nodup)
    (hac : Acyclic f.steps) (hfr : FullyReferenced f.steps) :
    (optimizeFlow f).steps.Perm f.steps ∧ GoodOrder (optimizeFlow f).steps :=
  ⟨optimizeFlow_perm f hnd, optimizeFlow_order f hac hfr⟩

/-- C5 witnessed at the chain sync ← analyze ← test. -/
theorem fb_C5_topological_order_witness :
    (optimizeFlow chainFlow).steps.Perm chainFlow.steps :=
  (fb_C5_topological_order chainFlow (by decide) chainFlow_acyclic
    (by unfold FullyReferenced; decide)).1

/-- C6 counterexample: for `Graph{A deps:["ghost"]}` the reported message is
`Step 'A' has missing dependency: ghost`, not the claimed
`node 'A' has missing dependency: ghost`. -/
theorem fb_C6_counterexample :
    validateFlow ghostFlow = ⟨false, [missingMsg "A" "ghost"]⟩ ∧
    validateFlow ghostFlow ≠
      ⟨false, ["node " ++ squote ++ "A" ++ squote ++
        " has missing dependency: ghost"]⟩ :=
  ⟨by decide, by decide⟩

/-- C6 amended: whenever any step references an id carried by no step of the
flow, validation fails and the error list contains
`Step '<node>' has missing dependency: <id>`, produced by the dedicated
missing-dependency pass independently of cycle checking; for
`Graph{A deps:["ghost"]}` the result is exactly that single error. -/
theorem fb_C6_amended :
    (∀ (f : Flow) (s : FlowStep) (d : String), s ∈ f.steps →
      d ∈ s.dependencies → findStep f.steps d = none →
      (validateFlow f).valid = false ∧
      missingMsg s.id d ∈ (validateFlow f).errors) ∧
    validateFlow ghostFlow = ⟨false, [missingMsg "A" "ghost"]⟩ :=
  ⟨fun f s d hs hd hn => validateFlow_of_missing f hs hd hn, by decide⟩

/-- C6 amended, witnessed at the ghost graph. -/
theorem fb_C6_amended_witness :
    missingMsg "A" "ghost" ∈ (validateFlow ghostFlow).errors :=
  (fb_C6_amended.1 ghostFlow (mkStep "A" ["ghost"]) "ghost" (by decide)
    (by decide) (by decide)).2

/-- C7 counterexample: building a flow from two specs carrying the same id
"A" is not rejected — `buildFlow` is total, performs no duplicate check, and
returns both steps; `addStep` likewise appends without checking. -/
theorem fb_C7_counterexample :
    (buildFlow 0 "w" "d" [dupSpec, dupSpec]).steps.map FlowStep.id =
      ["A", "A"] ∧
    ((addStep (addStep (⟨"w", [], false⟩ : Workflow Nat) (okStep "A" 0))
      (okStep "A" 0)).steps.map WorkflowStep.id) = ["A", "A"] :=
  ⟨by decide, by decide⟩

/-- C7 amended: `buildFlow` performs no duplicate-id detection: it keeps
every incoming spec (duplicates included) in declaration order, so duplicate
insertion is silently kept, and no `ConfigurationError` is ever raised (the
function is total and no such error type exists in the code). -/
theorem fb_C7_amended (ts : Nat) (name description : String)
    (specs : List PartialFlowStep) :
    (buildFlow ts name description specs).steps.length = specs.length ∧
    (buildFlow ts name description specs).steps =
      specs.enum.map (fun p => buildFlowStep p.1 p.2) := by
  refine ⟨?_, rfl⟩
  simp [buildFlow]

/-- C7 amended, witnessed at the duplicate pair. -/
theorem fb_C7_amended_witness :
    (buildFlow 0 "w" "d" [dupSpec, dupSpec]).steps.length = 2 :=
  (fb_C7_amended 0 "w" "d" [dupSpec, dupSpec]).1

/-- C8 counterexample: in deployment mode with a failing test step, the run
records only the test phase and reports `success = false`; the failure is
surfaced as a thrown-and-caught plain JavaScript `Error` (name "Error",
message "Tests must pass before deployment") that the result object does not
carry — there is no `OrchestrationPreconditionError` anywhere. -/
theorem orch_C8_counterexample :
    orchestrateRun failingTestEnv "deployment" =
      (⟨false, [("test", ⟨false⟩)]⟩,
        some ⟨"Error", "Tests must pass before deployment"⟩) ∧
    (orchestrateRun failingTestEnv "deployment").2.map JsError.name ≠
      some "OrchestrationPreconditionError" :=
  ⟨by decide, by decide⟩

/-- C8 amended: in deployment mode, when the test tool reports failure, the
deploy tool is never consulted (the outcome is the same whatever it would
return), the result is exactly `{success := false, phases := [test]}`, and
the precondition failure is reported only as a generic thrown `Error` with
message "Tests must pass before deployment", caught and logged by
`orchestrate`. -/
theorem orch_C8_amended (env : OrchestratorEnv)
    (h : env.testResult.success = false) :
    ∀ dep : ToolResult,
      orchestrateRun { env with deployResult := dep } "deployment" =
        (⟨false, [("test", env.testResult)]⟩,
          some ⟨"Error", "Tests must pass before deployment"⟩) := by
  intro dep
  simp [orchestrateRun, runDeploymentMode, h]

/-- C8 amended, witnessed in the all-good-but-test environment. -/
theorem orch_C8_amended_witness :
    orchestrateRun failingTestEnv "deployment" =
      (⟨false, [("test", ⟨false⟩)]⟩,
        some ⟨"Error", "Tests must pass before deployment"⟩) :=
  orch_C8_amended failingTestEnv rfl ⟨true⟩

/-- C9: the orchestrator's mode union is exactly
full/development/ci/deployment — "components" is not among them — and at
runtime `orchestrate` with mode "components" falls through its switch,
running no step at all (empty phases, vacuous success) instead of the
configure(components) → sync(components) → database-sync sequence the spec
(and the repository's own tests and docs) promise. -/
theorem orch_C9_components_missing :
    "components" ∉ configModes ∧
    (∀ env : OrchestratorEnv, orchestrateRun env "components" = (⟨true, []⟩, none)) :=
  ⟨by decide, fun env => rfl⟩

/-- C9 witnessed in a concrete environment. -/
theorem orch_C9_components_missing_witness :
    orchestrateRun failingTestEnv "components" = (⟨true, []⟩, none) :=
  orch_C9_components_missing.2 failingTestEnv

/-- C10: for every flow with pairwise-distinct step ids — including cyclic
flows and flows with dangling dependencies — `optimizeFlow` returns a
permutation of the input steps: every step exactly once, none dropped, none
duplicated. -/
theorem fb_C10_optimize_perm (f : Flow) (hnd : (f.steps.map FlowStep.id).Nodup) :
    (optimizeFlow f).steps.Perm f.steps :=
  optimizeFlow_perm f hnd

/-- C10 witnessed at the cyclic crossed pair. -/
theorem fb_C10_optimize_perm_witness :
    (optimizeFlow crossFlow).steps.Perm crossFlow.steps :=
  fb_C10_optimize_perm crossFlow (by decide)

end AiCode
